import Mathlib

set_option autoImplicit false

namespace EfsmDpn

/-! Shallow embedding of the efsm_dpn repository (EFSM learning and DPN
projection).  Python dictionaries are modelled as association lists in
insertion order, Python sets of strings as deduplicated lists, and numeric
thresholds as rationals.  Every definition is translated from the source
files under src/efsm_dpn; the single spec-side definition needed to state a
claim is marked as such in its doc comment. -/

/-- Scalar attribute values as they occur in event logs.  The repository also
passes floats around; none of the claims under verification exercises a
float, so the embedded value type carries integers and strings. -/
inductive Value where
  | vint (i : Int)
  | vstr (s : String)
deriving DecidableEq, Repr

/-- Association-list lookup by string key, first match wins, mirroring lookup
in a Python dict (whose keys are unique). -/
def alookup {α : Type} : List (String × α) → String → Option α
  | [], _ => none
  | (k, v) :: rest, key => if k = key then some v else alookup rest key

/-- Python dict assignment d[k] = v: overwrite in place when the key exists,
append at the end otherwise (insertion order is preserved). -/
def aset {α : Type} : List (String × α) → String → α → List (String × α)
  | [], key, v => [(key, v)]
  | (k, w) :: rest, key, v =>
    if k = key then (k, v) :: rest else (k, w) :: aset rest key v

/-- Python str.startswith over code points (first argument is the pattern
looked for at the front of the second). -/
def startsBy : List Char → List Char → Bool
  | [], _ => true
  | _ :: _, [] => false
  | p :: ps, c :: cs => p == c && startsBy ps cs

/-- Python slice s[n:] over code points. -/
def pyDrop (s : String) (n : Nat) : String := String.mk (s.data.drop n)

/-- Event attribute dictionaries: attribute name to scalar value. -/
abbrev AttrMap := List (String × Value)

/-- Variable state of a simulation: a variable may hold Python None,
modelled as the value none. -/
abbrev VarState := List (String × Option Value)

/-- Fragment of z3 boolean expressions sufficient for the guards the claims
exercise: an equality between an integer variable and an integer literal, or
an already-evaluated boolean literal (the result of substitution). -/
inductive ZExpr where
  | eqv (v : String) (c : Int)
  | lit (b : Bool)
deriving DecidableEq, Repr

/-- z3.substitute of an integer literal for a named integer variable. -/
def ZExpr.substInt : ZExpr → String → Int → ZExpr
  | .eqv v c, name, k => if v = name then .lit (decide (k = c)) else .eqv v c
  | .lit b, _, _ => .lit b

/-- Satisfiability check (solver.check() == z3.sat) for the fragment: an
equality with a still-free variable is satisfiable; a literal is its own
verdict. -/
def ZExpr.sat : ZExpr → Bool
  | .eqv _ _ => true
  | .lit b => b

/-- str(expression): z3 prints an equality as name == constant. -/
def ZExpr.pyStr : ZExpr → String
  | .eqv v c => v ++ " == " ++ toString c
  | .lit b => if b then "True" else "False"

/-- Guard from src/efsm_dpn/models/efsm.py: an optional z3 expression plus an
optional serialized string form. -/
structure Guard where
  expression : Option ZExpr := none
  serialized : Option String := none
deriving DecidableEq, Repr

/-- Guard.evaluate: with no expression the guard is trivially true; otherwise
each variable whose current value is an int is substituted (values that are
None or strings fail the isinstance test in the source and are skipped,
leaving the z3 variable free), and the substituted formula is checked for
satisfiability.  In the embedded fragment substitution cannot raise, so the
except-branch of the source that returns False is unreachable here. -/
def Guard.evaluate (g : Guard) (var_state : VarState) : Bool :=
  match g.expression with
  | none => true
  | some e =>
    let substituted := var_state.foldl
      (fun acc p =>
        match p.2 with
        | some (.vint k) => acc.substInt p.1 k
        | _ => acc) e
    substituted.sat

/-- Guard.to_dict, represented by the value stored under the serialized key:
when the expression is None the source returns serialized None even if a
serialized string is stored; otherwise it returns the stored string,
defaulting to str(expression). -/
def Guard.to_dict (g : Guard) : Option String :=
  match g.expression with
  | none => none
  | some e =>
    match g.serialized with
    | some s => some s
    | none => some e.pyStr

/-- Guard.from_dict: the expression is never reconstructed. -/
def Guard.from_dict (d : Option String) : Guard :=
  match d with
  | none => { expression := none, serialized := none }
  | some s => { expression := none, serialized := some s }

/-- Update from src/efsm_dpn/models/efsm.py: assignments from variable names
to right-hand-side expression strings. -/
structure Update where
  assignments : List (String × String) := []
deriving DecidableEq, Repr

/-- Update.apply.  An assignment attr.name copies the event attribute when it
is present; any other right-hand side goes through Python eval, modelled by
the parameter py_eval (none meaning the evaluation raised, in which case the
variable is left unchanged, as the except/pass of the source does). -/
def Update.apply
    (py_eval : String → VarState → AttrMap → Option Value)
    (u : Update) (var_state : VarState) (event_attrs : AttrMap) : VarState :=
  u.assignments.foldl
    (fun new_state p =>
      if startsBy "attr.".data p.2.data then
        match alookup event_attrs (pyDrop p.2 5) with
        | some v => aset new_state p.1 (some v)
        | none => new_state
      else
        match py_eval p.2 var_state event_attrs with
        | some v => aset new_state p.1 (some v)
        | none => new_state)
    var_state

/-- Typed variable descriptor. -/
structure Variable where
  name : String
  dtype : String
deriving DecidableEq, Repr

/-- Variable.to_dict: the pair of the name and dtype fields. -/
def Variable.to_dict (v : Variable) : String × String := (v.name, v.dtype)

/-- Variable.from_dict. -/
def Variable.from_dict (d : String × String) : Variable :=
  { name := d.1, dtype := d.2 }

/-- EFSM transition. -/
structure Transition where
  source : String
  label : String
  guard : Guard
  update : Update
  target : String
deriving DecidableEq, Repr

/-- Dictionary form of a transition as produced by Transition.to_dict. -/
structure TransitionD where
  source : String
  label : String
  guard : Option String
  update : List (String × String)
  target : String
deriving DecidableEq, Repr

def Transition.to_dict (t : Transition) : TransitionD :=
  { source := t.source, label := t.label, guard := t.guard.to_dict,
    update := t.update.assignments, target := t.target }

def Transition.from_dict (d : TransitionD) : Transition :=
  { source := d.source, label := d.label, guard := Guard.from_dict d.guard,
    update := { assignments := d.update }, target := d.target }

/-- Extended finite state machine.  The source keeps states in a Python set;
the embedding keeps the list form used by to_dict, which is finer: list
equality implies Python set equality. -/
structure EFSM where
  states : List String
  initial : String
  vars : List (String × Variable)
  transitions : List Transition
deriving DecidableEq, Repr

/-- Dictionary form of an EFSM as produced by EFSM.to_dict. -/
structure EFSMD where
  states : List String
  initial : String
  vars : List (String × (String × String))
  transitions : List TransitionD
deriving DecidableEq, Repr

def EFSM.to_dict (m : EFSM) : EFSMD :=
  { states := m.states, initial := m.initial,
    vars := m.vars.map (fun p => (p.1, p.2.to_dict)),
    transitions := m.transitions.map Transition.to_dict }

def EFSM.from_dict (d : EFSMD) : EFSM :=
  { states := d.states, initial := d.initial,
    vars := d.vars.map (fun p => (p.1, Variable.from_dict p.2)),
    transitions := d.transitions.map Transition.from_dict }

/-- Serialise and immediately deserialise an EFSM (from_dict after to_dict,
the composition the round-trip claim is about). -/
def round_trip (m : EFSM) : EFSM := EFSM.from_dict m.to_dict

/-- Main loop of EFSM.simulate_trace: at each event, collect the transitions
leaving the current state with the matching label, fire the first one whose
guard evaluates true, otherwise reject at the current position. -/
def sim_go (py_eval : String → VarState → AttrMap → Option Value)
    (ts : List Transition) :
    List (String × AttrMap) → String → VarState → List String →
    Bool × List String × VarState
  | [], _, var_state, path => (true, path, var_state)
  | (activity, attrs) :: rest, current, var_state, path =>
    let candidates := ts.filter (fun t => t.source == current && t.label == activity)
    match candidates.find? (fun t => t.guard.evaluate var_state) with
    | some t =>
      sim_go py_eval ts rest t.target (t.update.apply py_eval var_state attrs)
        (path ++ [t.target])
    | none => (false, path, var_state)

/-- EFSM.simulate_trace: variables start at None, the path starts at the
initial state. -/
def EFSM.simulate_trace (py_eval : String → VarState → AttrMap → Option Value)
    (m : EFSM) (events : List (String × AttrMap)) :
    Bool × List String × VarState :=
  sim_go py_eval m.transitions events m.initial
    (m.vars.map (fun p => (p.2.name, (none : Option Value)))) [m.initial]

/-- A py_eval stub for concrete runs whose updates only use attr. copies (the
eval branch is never reached on them). -/
def py_eval_none : String → VarState → AttrMap → Option Value :=
  fun _ _ _ => none

/-- The EFSM of the serialisation test: a single transition with the guard
stored as serialized "true" and no expression. -/
def efsm_roundtrip_cex : EFSM :=
  { states := ["s0", "s1"], initial := "s0",
    vars := [("x", { name := "x", dtype := "int" })],
    transitions :=
      [{ source := "s0", label := "A",
         guard := { expression := none, serialized := some "true" },
         update := { assignments := [] }, target := "s1" }] }

/-- The EFSM of spec scenario 4: s0 -A-> s1 guarded by x = 0 with update
x := attr.x, and s1 -B-> s2 with the trivial guard. -/
def efsm_scenario4 : EFSM :=
  { states := ["s0", "s1", "s2"], initial := "s0",
    vars := [("x", { name := "x", dtype := "int" })],
    transitions :=
      [{ source := "s0", label := "A",
         guard := { expression := some (.eqv "x" 0), serialized := some "x == 0" },
         update := { assignments := [("x", "attr.x")] }, target := "s1" },
       { source := "s1", label := "B",
         guard := { expression := none, serialized := some "true" },
         update := { assignments := [] }, target := "s2" }] }

theorem variables_round_trip (l : List (String × Variable)) :
    (l.map (fun p => (p.1, p.2.to_dict))).map
      (fun p => (p.1, Variable.from_dict p.2)) = l := by
  induction l with
  | nil => rfl
  | cons hd tl ih =>
    simp only [List.map_cons, List.cons.injEq]
    exact ⟨rfl, ih⟩

theorem transition_round_trip (t : Transition)
    (ht : t.guard = { expression := none, serialized := none }) :
    Transition.from_dict t.to_dict = t := by
  cases t with
  | mk s l g u tg =>
    cases u
    simp only at ht
    subst ht
    rfl

theorem transitions_round_trip (l : List Transition)
    (h : ∀ t ∈ l, t.guard = { expression := none, serialized := none }) :
    (l.map Transition.to_dict).map Transition.from_dict = l := by
  induction l with
  | nil => rfl
  | cons t ts ih =>
    simp only [List.map_cons, List.cons.injEq]
    exact ⟨transition_round_trip t (h t (List.mem_cons_self t ts)),
      ih (fun t' h' => h t' (List.mem_cons_of_mem t h'))⟩

theorem guard_evaluate_none (s : Option String) (st : VarState) :
    Guard.evaluate { expression := none, serialized := s } st = true := rfl

/-- C2 counterexample: the transition guard of this EFSM has expression None
and serialized "true"; Guard.to_dict drops the serialized string, so the
round trip returns a different EFSM. -/
theorem C2_roundtrip_counterexample :
    round_trip efsm_roundtrip_cex ≠ efsm_roundtrip_cex := by
  decide

/-- C2 (amended): from_dict after to_dict is the identity on every EFSM all
of whose transition guards are fully trivial (no expression and no serialized
string); with any stored guard expression or serialized string the round trip
differs, as the counterexample shows. -/
theorem C2_round_trip_trivial_guards (m : EFSM)
    (h : ∀ t ∈ m.transitions,
      t.guard = { expression := none, serialized := none }) :
    round_trip m = m := by
  cases m with
  | mk states initial vs transitions =>
    simp only [round_trip, EFSM.to_dict, EFSM.from_dict, EFSM.mk.injEq]
    exact ⟨trivial, trivial, variables_round_trip vs, transitions_round_trip transitions h⟩

/-- Witness for C2: the round trip fixes a concrete EFSM whose only guard is
fully trivial. -/
theorem C2_round_trip_witness :
    round_trip
      { states := ["s0"], initial := "s0", vars := [],
        transitions :=
          [{ source := "s0", label := "A", guard := {}, update := {},
             target := "s0" }] } =
      { states := ["s0"], initial := "s0", vars := [],
        transitions :=
          [{ source := "s0", label := "A", guard := {}, update := {},
             target := "s0" }] } :=
  C2_round_trip_trivial_guards _ (by decide)

/-- C3 counterexample: on the scenario-4 EFSM, the guard x = 0 with x still
None does not raise: the substitution loop skips None values, the formula
keeps x free and is satisfiable, so the transition fires and the trace is
accepted with the full path, not rejected at position 0. -/
theorem C3_simulation_counterexample :
    EFSM.simulate_trace py_eval_none efsm_scenario4
        [("A", [("x", .vint 10)]), ("B", [])] =
      (true, ["s0", "s1", "s2"], [("x", some (.vint 10))]) := by
  decide

/-- C3 (amended): in simulate_trace a guard variable that is still None is
skipped by the substitution loop, so the guard x = 0 is checked with x free
and found satisfiable: for every eval model and every pair of attribute
dictionaries, the scenario-4 trace A then B is accepted. -/
theorem C3_simulation_accepts (py_eval : String → VarState → AttrMap → Option Value)
    (a b : AttrMap) :
    (EFSM.simulate_trace py_eval efsm_scenario4 [("A", a), ("B", b)]).1 = true := by
  simp only [EFSM.simulate_trace, efsm_scenario4, sim_go]
  norm_num [List.filter, List.find?, Guard.evaluate, ZExpr.sat, sim_go]

/-- Python str.split with no argument: split on runs of whitespace and drop
empty pieces.  The accumulator holds the current word reversed. -/
def splitWsGo : List Char → List Char → List String
  | [], cur => if cur = [] then [] else [String.mk cur.reverse]
  | c :: cs, cur =>
    if c.isWhitespace then
      if cur = [] then splitWsGo cs []
      else String.mk cur.reverse :: splitWsGo cs []
    else splitWsGo cs (c :: cur)

def pySplit (s : String) : List String := splitWsGo s.data []

/-- Continuation character of a Python identifier (ASCII fragment; all
strings the repository builds are ASCII). -/
def isIdentChar (c : Char) : Bool := c.isAlphanum || c == '_'

/-- Python str.isidentifier, ASCII fragment. -/
def pyIsIdentifier (s : String) : Bool :=
  match s.data with
  | [] => false
  | c :: cs => (c.isAlpha || c == '_') && cs.all isIdentChar

/-- Python set.add on a set represented as a deduplicated list in insertion
order. -/
def sinsert (l : List String) (x : String) : List String :=
  if x ∈ l then l else l ++ [x]

/-- Add to a string set every word of a list that passes a filter (the shape
of both word loops of infer_read_write_sets). -/
def add_words (P : String → Bool) (init : List String) (words : List String) :
    List String :=
  words.foldl (fun acc w => if P w then sinsert acc w else acc) init

/-- infer_read_write_sets from src/efsm_dpn/learn/guard_inference.py:
write_vars is the key set of the assignments; read_vars collects the
whitespace-separated words of the serialized guard that are identifiers
other than And, Or, Not (skipped entirely when the serialized form is empty,
missing or the string true), then the identifier words of every assignment
right-hand side other than the bare word attr. -/
def infer_read_write_sets (guard : Guard)
    (update_assignments : List (String × String)) :
    List String × List String :=
  let write_vars := update_assignments.foldl (fun acc p => sinsert acc p.1) []
  let read_vars : List String :=
    match guard.serialized with
    | some s =>
      if s ≠ "" ∧ s ≠ "true" then
        add_words
          (fun w => pyIsIdentifier w && decide (w ∉ (["And", "Or", "Not"] : List String)))
          [] (pySplit s)
      else []
    | none => []
  let read_vars := update_assignments.foldl
    (fun acc p => add_words (fun w => pyIsIdentifier w && decide (w ≠ "attr")) acc (pySplit p.2))
    read_vars
  (read_vars, write_vars)

/-- Data-aware transition record from src/efsm_dpn/models/dpn.py, with the
underlying pm4py transition represented by its name and label. -/
structure DPNTransition where
  name : String
  label : Option String
  guard : Guard
  update : Update
  read_vars : List String
  write_vars : List String
deriving DecidableEq, Repr

/-- Data-aware Petri net: places, transitions and arcs of the underlying net
are represented by names (all distinct in the nets the mapping builds), plus
the data annotations. -/
structure DPN where
  places : List String
  transitions : List (String × Option String)
  arcs : List (String × String)
  initial_marking : List (String × Nat)
  final_marking : Option (List (String × Nat)) := none
  data_transitions : List (String × DPNTransition) := []
  vars : List (String × String) := []
deriving DecidableEq, Repr

/-- Grouping step of map_efsm_to_dpn: a defaultdict(list) keyed by label, in
first-occurrence order. -/
def transitions_by_label (ts : List Transition) : List (String × List Transition) :=
  ts.foldl
    (fun acc t =>
      match alookup acc t.label with
      | some g => aset acc t.label (g ++ [t])
      | none => acc ++ [(t.label, [t])])
    []

/-- Python string comparison: lexicographic over code points. -/
def strLtB : List Char → List Char → Bool
  | [], [] => false
  | [], _ :: _ => true
  | _ :: _, [] => false
  | a :: as, b :: bs => if a < b then true else if b < a then false else strLtB as bs

def insertSortedGroup (x : String × List Transition) :
    List (String × List Transition) → List (String × List Transition)
  | [] => [x]
  | y :: ys => if strLtB x.1.data y.1.data then x :: y :: ys else y :: insertSortedGroup x ys

/-- sorted(transitions_by_label.items()): ascending by label. -/
def sortGroups (l : List (String × List Transition)) : List (String × List Transition) :=
  l.foldl (fun acc x => insertSortedGroup x acc) []

/-- Python sep.join. -/
def joinSep (sep : String) : List String → String
  | [] => ""
  | x :: xs => xs.foldl (fun acc y => acc ++ sep ++ y) x

/-- Loop body of the guard-string collection in map_efsm_to_dpn: a truthy
serialized guard other than the string true is wrapped in parentheses and
appended. -/
def gstep (acc : List String) (t : Transition) : List String :=
  match t.guard.serialized with
  | some s => if s ≠ "" ∧ s ≠ "true" then acc ++ ["(" ++ s ++ ")"] else acc
  | none => acc

/-- The parenthesised non-trivial guard strings of a label group. -/
def guard_strings_of (group : List Transition) : List String :=
  group.foldl gstep []

/-- Guard merging of map_efsm_to_dpn: join the collected guard strings with
Or; with none the merged guard is the string true.  The merged guard never
carries an expression. -/
def merged_guard_of (group : List Transition) : Guard :=
  match guard_strings_of group with
  | [] => { expression := none, serialized := some "true" }
  | gs => { expression := none, serialized := some (joinSep " Or " gs) }

/-- Update merging of map_efsm_to_dpn: dict.update across the group in list
order. -/
def merged_update_of (group : List Transition) : List (String × String) :=
  group.foldl (fun acc t => t.update.assignments.foldl (fun a p => aset a p.1 p.2) acc) []

/-- Construction of one DPNTransition per activity label. -/
def mk_dpn_transition (label : String) (group : List Transition) : DPNTransition :=
  let merged_guard := merged_guard_of group
  let merged_assignments := merged_update_of group
  let rw := infer_read_write_sets merged_guard merged_assignments
  { name := label, label := some label, guard := merged_guard,
    update := { assignments := merged_assignments },
    read_vars := rw.1, write_vars := rw.2 }

/-- The label groups of an EFSM in the order the mapping visits them. -/
def dpn_groups (efsm : EFSM) : List (String × List Transition) :=
  sortGroups (transitions_by_label efsm.transitions)

/-- map_efsm_to_dpn from src/efsm_dpn/map/efsm_to_dpn.py: three fixed places
start, end and process, one silent transition on each side, one visible
transition per activity label self-looping on the process place, and the
initial marking putting one token on the start place. -/
def map_efsm_to_dpn (efsm : EFSM) : DPN :=
  { places := ["start", "end", "process"],
    transitions :=
      ("start_process", none) ::
        ((dpn_groups efsm).map (fun g => (g.1, some g.1)) ++ [("end_process", none)]),
    arcs :=
      [("start", "start_process"), ("start_process", "process")] ++
        ((dpn_groups efsm).map (fun g => [("process", g.1), (g.1, "process")])).flatten ++
        [("process", "end_process"), ("end_process", "end")],
    initial_marking := [("start", 1)],
    final_marking := none,
    data_transitions := (dpn_groups efsm).map (fun g => (g.1, mk_dpn_transition g.1 g.2)),
    vars := efsm.vars.map (fun p => (p.2.name, p.2.dtype)) }

/-- Spec-side definition, used only to state claim C4: the maximal runs of
identifier characters occurring in a string.  Those runs that are valid
identifiers are the identifiers syntactically appearing in the string. -/
def identRunsGo : List Char → List Char → List String
  | [], cur => if cur = [] then [] else [String.mk cur.reverse]
  | c :: cs, cur =>
    if isIdentChar c then identRunsGo cs (c :: cur)
    else if cur = [] then identRunsGo cs []
    else String.mk cur.reverse :: identRunsGo cs []

/-- Spec-side definition, used only to state claim C4: identifiers
syntactically appearing in a string. -/
def spec_identifiers_in (s : String) : List String :=
  (identRunsGo s.data []).filter pyIsIdentifier

/-- The EFSM of the repository test test_efsm_to_dpn_mapping: three states,
two transitions A and B. -/
def efsm_mapping_test : EFSM :=
  { states := ["s0", "s1", "s2"], initial := "s0",
    vars := [("x", { name := "x", dtype := "int" })],
    transitions :=
      [{ source := "s0", label := "A",
         guard := { expression := none, serialized := some "true" },
         update := { assignments := [("x", "attr.x")] }, target := "s1" },
       { source := "s1", label := "B",
         guard := { expression := none, serialized := some "true" },
         update := { assignments := [] }, target := "s2" }] }

/-- An EFSM whose single transition carries the serialized guard
x >= 100 (the second repository mapping test). -/
def efsm_guard_x : EFSM :=
  { states := ["s0", "s1"], initial := "s0",
    vars := [("x", { name := "x", dtype := "int" })],
    transitions :=
      [{ source := "s0", label := "A",
         guard := { expression := none, serialized := some "x >= 100" },
         update := { assignments := [] }, target := "s1" }] }

/-- C1: evaluation of the mapping at the EFSM of the repository test.  The
claim (and the test) require one place per state, one net transition per
EFSM transition (here 2), two arcs per transition (here 4) and the token on
the place of the initial state s0; the code instead builds the fixed
start/process/end net: 4 net transitions, 8 arcs and the token on start. -/
theorem C1_mapping_shape :
    (map_efsm_to_dpn efsm_mapping_test).places.length = 3 ∧
    (map_efsm_to_dpn efsm_mapping_test).transitions.length = 4 ∧
    (map_efsm_to_dpn efsm_mapping_test).arcs.length = 8 ∧
    (map_efsm_to_dpn efsm_mapping_test).initial_marking = [("start", 1)] ∧
    efsm_mapping_test.transitions.length = 2 ∧
    efsm_mapping_test.states.length = 3 := by
  decide

/-- C4 counterexample: the projection of efsm_guard_x yields one data
transition whose serialized guard is (x >= 100); the identifier x appears
syntactically in that string but read_vars is empty, because the
whitespace-split words (x and 100) are not identifiers. -/
theorem C4_read_vars_counterexample :
    (map_efsm_to_dpn efsm_guard_x).data_transitions.map
        (fun p => (p.1, p.2.guard.serialized, p.2.read_vars)) =
      [("A", some "(x >= 100)", [])] ∧
    "x" ∈ spec_identifiers_in "(x >= 100)" := by
  decide

theorem mem_sinsert (l : List String) (x y : String) :
    y ∈ sinsert l x ↔ y ∈ l ∨ y = x := by
  unfold sinsert
  by_cases h : x ∈ l
  · rw [if_pos h]
    constructor
    · exact Or.inl
    · rintro (hy | rfl)
      · exact hy
      · exact h
  · rw [if_neg h]
    simp

theorem mem_sinsert_of_mem (l : List String) (x y : String) (h : y ∈ l) :
    y ∈ sinsert l x := (mem_sinsert l x y).2 (Or.inl h)

theorem self_mem_sinsert (l : List String) (x : String) : x ∈ sinsert l x :=
  (mem_sinsert l x x).2 (Or.inr rfl)

theorem mem_add_words_init (P : String → Bool) (words : List String) :
    ∀ init x, x ∈ init → x ∈ add_words P init words := by
  induction words with
  | nil => intro init x h; exact h
  | cons w ws ih =>
    intro init x h
    simp only [add_words, List.foldl_cons] at *
    by_cases hw : P w = true
    · rw [if_pos hw]
      exact ih _ x (mem_sinsert_of_mem init w x h)
    · rw [if_neg hw]
      exact ih _ x h

theorem mem_add_words_self (P : String → Bool) (words : List String) :
    ∀ init x, x ∈ words → P x = true → x ∈ add_words P init words := by
  induction words with
  | nil => intro init x h; exact absurd h (List.not_mem_nil x)
  | cons w ws ih =>
    intro init x hx hP
    simp only [add_words, List.foldl_cons]
    rcases List.mem_cons.1 hx with rfl | hx'
    · rw [if_pos hP]
      exact mem_add_words_init P ws _ x (self_mem_sinsert init x)
    · by_cases hw : P w = true
      · rw [if_pos hw]; exact ih _ x hx' hP
      · rw [if_neg hw]; exact ih _ x hx' hP

theorem mem_assignments_fold (Q : String → Bool) (l : List (String × String)) :
    ∀ init x, x ∈ init →
      x ∈ l.foldl (fun acc p => add_words Q acc (pySplit p.2)) init := by
  induction l with
  | nil => intro init x h; exact h
  | cons p ps ih =>
    intro init x h
    simp only [List.foldl_cons]
    exact ih _ x (mem_add_words_init Q (pySplit p.2) init x h)

theorem mem_keys_fold (l : List (String × String)) :
    ∀ init x, x ∈ l.foldl (fun acc p => sinsert acc p.1) init ↔
      x ∈ init ∨ x ∈ l.map Prod.fst := by
  induction l with
  | nil => intro init x; simp
  | cons p ps ih =>
    intro init x
    simp only [List.foldl_cons, List.map_cons, List.mem_cons]
    rw [ih (sinsert init p.1) x, mem_sinsert]
    tauto

theorem merged_guard_expression_none (group : List Transition) :
    (merged_guard_of group).expression = none := by
  unfold merged_guard_of
  split <;> rfl

theorem joinSep_length (sep : String) (xs : List String) :
    ∀ acc : String, acc.length ≤ (xs.foldl (fun a y => a ++ sep ++ y) acc).length := by
  induction xs with
  | nil => intro acc; exact Nat.le_refl _
  | cons y ys ih =>
    intro acc
    calc acc.length ≤ (acc ++ sep ++ y).length := by
          simp [String.length_append]
          omega
      _ ≤ _ := ih (acc ++ sep ++ y)

theorem gstep_pos (acc : List String) (t : Transition)
    (h : ∀ x ∈ acc, 0 < x.length) : ∀ x ∈ gstep acc t, 0 < x.length := by
  intro x hx
  unfold gstep at hx
  rcases ht : t.guard.serialized with _ | s
  · rw [ht] at hx
    exact h x hx
  · rw [ht] at hx
    dsimp only at hx
    by_cases hc : s ≠ "" ∧ s ≠ "true"
    · rw [if_pos hc] at hx
      rcases List.mem_append.1 hx with hx' | hx'
      · exact h x hx'
      · have hx'' := List.mem_singleton.1 hx'
        subst hx''
        have h1 : ")".length = 1 := rfl
        simp only [String.length_append]
        omega
    · rw [if_neg hc] at hx
      exact h x hx

theorem foldl_gstep_pos (group : List Transition) :
    ∀ acc : List String, (∀ x ∈ acc, 0 < x.length) →
      ∀ x ∈ group.foldl gstep acc, 0 < x.length := by
  induction group with
  | nil => intro acc h x hx; exact h x hx
  | cons t ts ih =>
    intro acc h x hx
    simp only [List.foldl_cons] at hx
    exact ih (gstep acc t) (gstep_pos acc t h) x hx

theorem merged_guard_serialized_cases (group : List Transition) :
    ∃ s, (merged_guard_of group).serialized = some s ∧ (s = "true" ∨ 0 < s.length) := by
  unfold merged_guard_of
  rcases hg : guard_strings_of group with _ | ⟨x, xs⟩
  · exact ⟨"true", rfl, Or.inl rfl⟩
  · refine ⟨joinSep " Or " (x :: xs), rfl, Or.inr ?_⟩
    have hx : 0 < x.length := by
      refine foldl_gstep_pos group [] ?_ x ?_
      · intro y hy; exact absurd hy (List.not_mem_nil y)
      · show x ∈ guard_strings_of group
        rw [hg]
        exact List.mem_cons_self x xs
    calc 0 < x.length := hx
      _ ≤ (joinSep " Or " (x :: xs)).length := joinSep_length " Or " xs x

/-- C4 (amended): for every data transition the projection produces,
write_vars is exactly the key set of the merged update assignments, and
read_vars contains every whitespace-delimited word of the serialized guard
that is an identifier other than And, Or, Not (whenever the serialized guard
is not the string true); identifiers glued to other characters, such as a
variable directly inside a parenthesis, are not collected, as the
counterexample shows. -/
theorem C4_read_write_inference (e : EFSM) (name : String) (dt : DPNTransition)
    (hmem : (name, dt) ∈ (map_efsm_to_dpn e).data_transitions) :
    (∀ v, v ∈ dt.write_vars ↔ v ∈ dt.update.assignments.map Prod.fst) ∧
    (∀ w, w ∈ pySplit (dt.guard.serialized.getD "") → pyIsIdentifier w = true →
      w ∉ (["And", "Or", "Not"] : List String) →
      dt.guard.serialized ≠ some "true" → w ∈ dt.read_vars) := by
  have hmem' : (name, dt) ∈
      (dpn_groups e).map (fun g => (g.1, mk_dpn_transition g.1 g.2)) := hmem
  obtain ⟨g, hg, heq⟩ := List.mem_map.1 hmem'
  have hdt : dt = mk_dpn_transition g.1 g.2 := by
    have := congrArg Prod.snd heq
    simpa using this.symm
  subst hdt
  constructor
  · intro v
    show v ∈ (infer_read_write_sets (merged_guard_of g.2) (merged_update_of g.2)).2 ↔ _
    show v ∈ (merged_update_of g.2).foldl (fun acc p => sinsert acc p.1) [] ↔ _
    rw [mem_keys_fold]
    simp [mk_dpn_transition]
  · intro w hw hident hres htr
    obtain ⟨s, hs, hcase⟩ := merged_guard_serialized_cases g.2
    have hgser : (mk_dpn_transition g.1 g.2).guard.serialized = some s := hs
    rw [hgser] at hw htr
    have hstrue : s ≠ "true" := by
      intro h
      exact htr (by rw [h])
    have hslen : 0 < s.length := by
      rcases hcase with h | h
      · exact absurd h hstrue
      · exact h
    have hsne : s ≠ "" := by
      intro h
      rw [h] at hslen
      simp at hslen
    show w ∈ (infer_read_write_sets (merged_guard_of g.2) (merged_update_of g.2)).1
    unfold infer_read_write_sets
    simp only [hs]
    rw [if_pos ⟨hsne, hstrue⟩]
    refine mem_assignments_fold _ (merged_update_of g.2) _ w ?_
    refine mem_add_words_self _ (pySplit s) [] w ?_ ?_
    · simpa using hw
    · rw [hident]
      simpa using hres

/-- An EFSM whose single transition guard contains the reserved word And and
an identifier word b surrounded by whitespace. -/
def efsm_guard_ab : EFSM :=
  { states := ["s0", "s1"], initial := "s0",
    vars := [("x", { name := "x", dtype := "int" })],
    transitions :=
      [{ source := "s0", label := "A",
         guard := { expression := none, serialized := some "a >= 1 And b <= 2" },
         update := { assignments := [("x", "attr.x")] }, target := "s1" }] }

/-- Witness for C4 at a concrete projection output. -/
theorem C4_read_write_inference_witness :
    (("A", mk_dpn_transition "A" efsm_guard_ab.transitions) ∈
        (map_efsm_to_dpn efsm_guard_ab).data_transitions) ∧
    ("x" ∈ (mk_dpn_transition "A" efsm_guard_ab.transitions).write_vars ↔
      "x" ∈ (mk_dpn_transition "A" efsm_guard_ab.transitions).update.assignments.map Prod.fst) ∧
    "b" ∈ (mk_dpn_transition "A" efsm_guard_ab.transitions).read_vars :=
  ⟨by decide,
   (C4_read_write_inference efsm_guard_ab "A" _ (by decide)).1 "x",
   (C4_read_write_inference efsm_guard_ab "A" _ (by decide)).2 "b" (by decide)
     (by decide) (by decide) (by decide)⟩

/-- C10: a guard reconstructed by from_dict never carries an expression; a
guard without an expression evaluates true on every variable state; and
every data transition the projection attaches carries an expression-free
guard. -/
theorem C10_expression_free_guards_true :
    (∀ d, (Guard.from_dict d).expression = none) ∧
    (∀ g : Guard, g.expression = none → ∀ st, g.evaluate st = true) ∧
    (∀ (e : EFSM) (p : String × DPNTransition),
      p ∈ (map_efsm_to_dpn e).data_transitions → p.2.guard.expression = none) := by
  refine ⟨?_, ?_, ?_⟩
  · intro d
    cases d <;> rfl
  · intro g hg st
    simp [Guard.evaluate, hg]
  · intro e p hp
    have hp' : p ∈ (dpn_groups e).map (fun g => (g.1, mk_dpn_transition g.1 g.2)) := hp
    obtain ⟨g, hg, heq⟩ := List.mem_map.1 hp'
    subst heq
    exact merged_guard_expression_none g.2

/-- Witness for C10 at concrete inputs. -/
theorem C10_expression_free_guards_true_witness :
    (Guard.from_dict (some "x >= 100")).expression = none ∧
    Guard.evaluate { expression := none, serialized := some "x >= 100" }
      [("x", none)] = true ∧
    (mk_dpn_transition "A" efsm_guard_x.transitions).guard.expression = none :=
  ⟨C10_expression_free_guards_true.1 (some "x >= 100"),
   C10_expression_free_guards_true.2.1 _ rfl [("x", none)],
   C10_expression_free_guards_true.2.2 efsm_guard_x
     ("A", mk_dpn_transition "A" efsm_guard_x.transitions) (by decide)⟩

/-- Loop of learn_efsm_from_pta (src/efsm_dpn/learn/efsm_learner.py, lines
104 to 107) deriving the update assignments of one merged edge: for each
known attribute, the comprehension collects the values of that attribute in
the pooled samples, and the assignment attr.name is added exactly when the
attribute name occurs among those values (a string-to-value comparison). -/
def update_assignments_for_edge (attribute_domains : List String)
    (samples : List AttrMap) : List (String × String) :=
  attribute_domains.foldl
    (fun acc attr_name =>
      let vals := samples.filterMap (fun s => alookup s attr_name)
      if Value.vstr attr_name ∈ vals then aset acc attr_name ("attr." ++ attr_name)
      else acc)
    []

/-- C5: evaluation of the assignment-derivation loop.  The attribute x
appears as a key of the single pooled sample with value 10, so the claim
requires the assignment x := attr.x, but the code compares the attribute
name against the collected values and derives no assignment; it derives one
exactly when some sample stores the string x under the key x. -/
theorem C5_update_assignments_eval :
    update_assignments_for_edge ["x"] [[("x", .vint 10)]] = [] ∧
    update_assignments_for_edge ["x"] [[("x", .vstr "x")]] = [("x", "attr.x")] := by
  decide

/-- Classification of an aggregated persistence rate in
detect_variable_propagation: strictly above 0.7 is persistent, strictly
above 0.3 is sometimes, otherwise transient. -/
def classify_rate (r : ℚ) : String :=
  if r > 7/10 then "persistent" else if r > 3/10 then "sometimes" else "transient"

/-- Per-attribute step of detect_variable_propagation: bump the total count,
bump the persistence count when the attribute was seen before in this trace
with the same value, and remember the value. -/
def dvp_step (st : List (String × Nat) × List (String × Nat) × List (String × Value))
    (av : String × Value) :
    List (String × Nat) × List (String × Nat) × List (String × Value) :=
  let pers := st.1
  let tot := st.2.1
  let last := st.2.2
  let tot := match alookup tot av.1 with
    | some n => aset tot av.1 (n + 1)
    | none => aset tot av.1 1
  let pers :=
    if alookup last av.1 = some av.2 then
      match alookup pers av.1 with
      | some n => aset pers av.1 (n + 1)
      | none => aset pers av.1 1
    else pers
  (pers, tot, aset last av.1 av.2)

/-- Counting phase of detect_variable_propagation
(src/efsm_dpn/logs/io.py): the per-attribute
persistence and total counters aggregated over all traces, the last-value
store being reset at each trace. -/
def dvp_counts (traces : List (List (String × AttrMap))) :
    List (String × Nat) × List (String × Nat) :=
  traces.foldl
    (fun (pt : List (String × Nat) × List (String × Nat)) trace =>
      let r := trace.foldl (fun st ev => ev.2.foldl dvp_step st)
        (pt.1, pt.2, ([] : List (String × Value)))
      (r.1, r.2.1))
    ([], [])

/-- detect_variable_propagation from src/efsm_dpn/logs/io.py: walk every
trace, counting per attribute the occurrences and the occurrences repeating
the previous value in the same trace, then classify the aggregated rate. -/
def detect_variable_propagation (traces : List (List (String × AttrMap))) :
    List (String × String) :=
  let counts := dvp_counts traces
  counts.2.foldl
    (fun prop p =>
      if p.2 > 0 then
        let pers_count : Nat := (alookup counts.1 p.1).getD 0
        aset prop p.1 (classify_rate ((pers_count : ℚ) / (p.2 : ℚ)))
      else prop)
    []

/-- The six traces of spec scenario 2. -/
def scenario2_traces : List (List (String × AttrMap)) :=
  [[("A", [("x", .vint 10)]), ("B", [("x", .vint 10)]), ("C", [("x", .vint 10)])],
   [("A", [("x", .vint 10)]), ("B", [("x", .vint 10)]), ("C", [("x", .vint 10)])],
   [("A", [("x", .vint 10)]), ("B", [("x", .vint 10)]), ("C", [("x", .vint 10)])],
   [("A", [("x", .vint 20)]), ("B", [("x", .vint 20)]), ("C", [("x", .vint 20)])],
   [("A", [("x", .vint 20)]), ("B", [("x", .vint 20)]), ("C", [("x", .vint 20)])],
   [("A", [("x", .vint 20)]), ("B", [("x", .vint 20)]), ("C", [("x", .vint 20)])]]

/-- C8: on the six scenario-2 traces the aggregated rate of x is 12/18,
which is not strictly above 0.7, so the code classifies x as sometimes; the
claim (and the repository test with the same per-trace pattern) expect
persistent. -/
theorem C8_propagation_eval :
    detect_variable_propagation scenario2_traces = [("x", "sometimes")] := by
  have hc : dvp_counts scenario2_traces = ([("x", 12)], [("x", 18)]) := by decide
  simp only [detect_variable_propagation, hc, List.foldl_cons, List.foldl_nil]
  norm_num [alookup, aset, classify_rate]

/-- PTA node from src/efsm_dpn/learn/pta.py, in its tree view: children are
an insertion-ordered mapping from activity label to child node, edge samples
an insertion-ordered mapping from label to the attribute dictionaries that
crossed the edge. -/
inductive PTANode where
  | mk (node_id : Nat) (depth : Nat) (accepting : Bool)
      (children : List (String × PTANode))
      (edge_samples : List (String × List AttrMap))

def PTANode.node_id : PTANode → Nat
  | .mk i _ _ _ _ => i

def PTANode.depth : PTANode → Nat
  | .mk _ d _ _ _ => d

def PTANode.accepting : PTANode → Bool
  | .mk _ _ a _ _ => a

def PTANode.children : PTANode → List (String × PTANode)
  | .mk _ _ _ c _ => c

def PTANode.edge_samples : PTANode → List (String × List AttrMap)
  | .mk _ _ _ _ es => es

/-- PTANode.add_edge_sample: append the attribute dictionary to the buffer
of the label (a defaultdict of lists). -/
def PTANode.add_edge_sample (n : PTANode) (label : String) (attrs : AttrMap) : PTANode :=
  match n with
  | .mk i d a c es =>
    .mk i d a c
      (match alookup es label with
       | some l => aset es label (l ++ [attrs])
       | none => aset es label [attrs])

/-- Mark a node accepting (current.accepting = True at the end of
add_trace). -/
def PTANode.set_accepting : PTANode → PTANode
  | .mk i d _ c es => .mk i d true c es

/-- Python dict assignment current.children[activity] = node. -/
def PTANode.set_child (n : PTANode) (label : String) (child : PTANode) : PTANode :=
  match n with
  | .mk i d a c es => .mk i d a (aset c label child) es

/-- Body of PTA.add_trace, threading the node-id counter: walk the trace,
recording edge samples, creating missing children, and mark the terminal
node accepting. -/
def add_trace_go (node : PTANode) (counter : Nat) :
    List (String × AttrMap) → PTANode × Nat
  | [] => (node.set_accepting, counter)
  | (activity, attrs) :: rest =>
    let node := node.add_edge_sample activity attrs
    match alookup node.children activity with
    | some child =>
      let r := add_trace_go child counter rest
      (node.set_child activity r.1, r.2)
    | none =>
      let child := PTANode.mk counter (node.depth + 1) false [] []
      let r := add_trace_go child (counter + 1) rest
      (node.set_child activity r.1, r.2)

/-- Prefix tree acceptor: the root plus the id counter.  The flat node index
the source also keeps is redundant for the tree properties verified here;
the merging phase uses the separate store view below. -/
structure PTA where
  root : PTANode
  node_counter : Nat

def PTA.add_trace (p : PTA) (trace : List (String × AttrMap)) : PTA :=
  { root := (add_trace_go p.root p.node_counter trace).1,
    node_counter := (add_trace_go p.root p.node_counter trace).2 }

/-- build_pta: an empty PTA (root node 0 at depth 0, counter 1) fed every
trace in order. -/
def build_pta (traces : List (List (String × AttrMap))) : PTA :=
  traces.foldl PTA.add_trace
    { root := PTANode.mk 0 0 false [] [], node_counter := 1 }

/-- Descend from a node through the children labelled by successive
activities; none when some label has no child. -/
def follow_labels (node : PTANode) : List String → Option PTANode
  | [] => some node
  | l :: ls =>
    match alookup node.children l with
    | some c => follow_labels c ls
    | none => none

/-- A trace is accepted from a node when following its activity labels is
defined (a path of exactly the length of the trace) and ends accepting. -/
def accepts_trace (node : PTANode) (t : List (String × AttrMap)) : Bool :=
  match follow_labels node (t.map Prod.fst) with
  | some n => n.accepting
  | none => false

theorem alookup_aset_self {α : Type} (l : List (String × α)) (k : String) (v : α) :
    alookup (aset l k v) k = some v := by
  induction l with
  | nil => simp [aset, alookup]
  | cons p ps ih =>
    by_cases h : p.1 = k
    · simp [aset, alookup, h]
    · simp [aset, alookup, h, ih]

theorem alookup_aset_ne {α : Type} (l : List (String × α)) (k k' : String) (v : α)
    (h : k' ≠ k) : alookup (aset l k v) k' = alookup l k' := by
  have hkk : ¬ k = k' := fun he => h he.symm
  induction l with
  | nil => simp [aset, alookup, hkk]
  | cons p ps ih =>
    obtain ⟨pk, pv⟩ := p
    by_cases hp : pk = k
    · subst hp
      simp [aset, alookup, hkk]
    · by_cases hpk' : pk = k'
      · simp [aset, alookup, hp, hpk', h]
      · simp [aset, alookup, hp, hpk', ih]

theorem children_add_edge_sample (n : PTANode) (l : String) (a : AttrMap) :
    (n.add_edge_sample l a).children = n.children := by
  cases n; rfl

theorem accepting_add_edge_sample (n : PTANode) (l : String) (a : AttrMap) :
    (n.add_edge_sample l a).accepting = n.accepting := by
  cases n; rfl

theorem children_set_accepting (n : PTANode) :
    n.set_accepting.children = n.children := by
  cases n; rfl

theorem accepting_set_accepting (n : PTANode) :
    n.set_accepting.accepting = true := by
  cases n; rfl

theorem children_set_child (n : PTANode) (l : String) (c : PTANode) :
    (n.set_child l c).children = aset n.children l c := by
  cases n; rfl

theorem accepting_set_child (n : PTANode) (l : String) (c : PTANode) :
    (n.set_child l c).accepting = n.accepting := by
  cases n; rfl

theorem accepts_trace_nil (n : PTANode) : accepts_trace n [] = n.accepting := rfl

theorem accepts_trace_cons (n : PTANode) (a : String) (ats : AttrMap)
    (rest : List (String × AttrMap)) :
    accepts_trace n ((a, ats) :: rest) =
      (match alookup n.children a with
       | some c => accepts_trace c rest
       | none => false) := by
  cases h : alookup n.children a <;>
    simp [accepts_trace, follow_labels, h]

/-- The trace just added is accepted from the updated node. -/
theorem accepts_trace_add_self (t : List (String × AttrMap)) :
    ∀ (node : PTANode) (counter : Nat),
      accepts_trace (add_trace_go node counter t).1 t = true := by
  induction t with
  | nil =>
    intro node counter
    simp [add_trace_go, accepts_trace_nil, accepting_set_accepting]
  | cons ev rest ih =>
    intro node counter
    obtain ⟨a, ats⟩ := ev
    simp only [add_trace_go]
    cases h : alookup (node.add_edge_sample a ats).children a with
    | some child =>
      simp only [accepts_trace_cons, children_set_child, alookup_aset_self]
      exact ih child counter
    | none =>
      simp only [accepts_trace_cons, children_set_child, alookup_aset_self]
      exact ih _ (counter + 1)

/-- Adding any further trace preserves acceptance of a trace already
accepted from the node. -/
theorem accepts_trace_add_preserve (t' : List (String × AttrMap)) :
    ∀ (node : PTANode) (counter : Nat) (t : List (String × AttrMap)),
      accepts_trace node t = true →
      accepts_trace (add_trace_go node counter t').1 t = true := by
  induction t' with
  | nil =>
    intro node counter t h
    cases t with
    | nil => simp [add_trace_go, accepts_trace_nil, accepting_set_accepting]
    | cons ev rest =>
      obtain ⟨a, ats⟩ := ev
      rw [accepts_trace_cons] at h ⊢
      simpa [add_trace_go, children_set_accepting] using h
  | cons ev' rest' ih =>
    intro node counter t h
    obtain ⟨a', ats'⟩ := ev'
    simp only [add_trace_go]
    cases hc : alookup (node.add_edge_sample a' ats').children a' with
    | some child =>
      cases t with
      | nil =>
        rw [accepts_trace_nil] at h ⊢
        simpa [accepting_set_child, accepting_add_edge_sample] using h
      | cons ev rest =>
        obtain ⟨a, ats⟩ := ev
        rw [accepts_trace_cons] at h ⊢
        rw [children_set_child]
        by_cases ha : a = a'
        · subst ha
          rw [alookup_aset_self]
          rw [children_add_edge_sample] at hc
          rw [hc] at h
          exact ih child counter rest h
        · rw [alookup_aset_ne _ _ _ _ ha, children_add_edge_sample]
          exact h
    | none =>
      cases t with
      | nil =>
        rw [accepts_trace_nil] at h ⊢
        simpa [accepting_set_child, accepting_add_edge_sample] using h
      | cons ev rest =>
        obtain ⟨a, ats⟩ := ev
        rw [accepts_trace_cons] at h ⊢
        rw [children_set_child]
        by_cases ha : a = a'
        · subst ha
          rw [children_add_edge_sample] at hc
          rw [hc] at h
          exact absurd h (by simp)
        · rw [alookup_aset_ne _ _ _ _ ha, children_add_edge_sample]
          exact h

theorem accepts_trace_fold_preserve (l : List (List (String × AttrMap))) :
    ∀ (p : PTA) (t : List (String × AttrMap)),
      accepts_trace p.root t = true →
      accepts_trace (l.foldl PTA.add_trace p).root t = true := by
  induction l with
  | nil => intro p t h; exact h
  | cons tr trs ih =>
    intro p t h
    simp only [List.foldl_cons]
    exact ih _ t (accepts_trace_add_preserve tr p.root p.node_counter t h)

/-- C7: every ingested trace is accepted by the built PTA: following its
activity labels from the root is a defined path of exactly the length of
the trace ending at an accepting node. -/
theorem C7_pta_accepts_ingested (traces : List (List (String × AttrMap)))
    (t : List (String × AttrMap)) (h : t ∈ traces) :
    accepts_trace (build_pta traces).root t = true := by
  unfold build_pta
  generalize hp : ({ root := PTANode.mk 0 0 false [] [], node_counter := 1 } : PTA) = p
  clear hp
  induction traces generalizing p with
  | nil => exact absurd h (List.not_mem_nil t)
  | cons tr trs ih =>
    simp only [List.foldl_cons]
    rcases List.mem_cons.1 h with rfl | h'
    · exact accepts_trace_fold_preserve trs _ t
        (accepts_trace_add_self t p.root p.node_counter)
    · exact ih h' _

/-- Witness for C7 on two concrete traces. -/
theorem C7_pta_accepts_ingested_witness :
    ([("A", ([] : AttrMap)), ("B", [])] ∈
        [[("A", ([] : AttrMap)), ("B", [])], [("A", []), ("C", [])]]) ∧
    accepts_trace
      (build_pta [[("A", ([] : AttrMap)), ("B", [])], [("A", []), ("C", [])]]).root
      [("A", []), ("B", [])] = true :=
  ⟨by decide,
   C7_pta_accepts_ingested [[("A", []), ("B", [])], [("A", []), ("C", [])]]
     [("A", []), ("B", [])] (by decide)⟩

/-- Store view of a PTA node, as the merging phase of
src/efsm_dpn/learn/state_merger.py uses it: the PTA keeps a flat list of all
nodes, a node id being the position in that list (ids are allocated
consecutively from 0), and children refer to nodes by id.  Object mutation
in the source becomes updating the store at the node id. -/
structure SNode where
  accepting : Bool
  children : List (String × Nat)
  samples : List (String × List AttrMap)
deriving DecidableEq, Repr

abbrev Store := List SNode

/-- List lookup by position. -/
def lget? {α : Type} : List α → Nat → Option α
  | [], _ => none
  | x :: _, 0 => some x
  | _ :: xs, n + 1 => lget? xs n

/-- List update at a position (out of range leaves the list unchanged). -/
def lset {α : Type} : List α → Nat → α → List α
  | [], _, _ => []
  | _ :: xs, 0, v => v :: xs
  | x :: xs, n + 1, v => x :: lset xs n v

/-- compute_attribute_divergence: when the two nodes share no outgoing-edge
label (keys of edge_samples) the divergence is 1.0 regardless of the
attribute; the per-label statistics branch operates on IEEE floats through
numpy and scipy and is abstracted by the parameter rest, over which every
theorem below quantifies. -/
def compute_attribute_divergence (rest : SNode → SNode → String → ℚ)
    (node1 node2 : SNode) (attr_name : String) : ℚ :=
  if (node1.samples.map Prod.fst).filter
      (fun l => decide (l ∈ node2.samples.map Prod.fst)) = [] then 1
  else rest node1 node2 attr_name

/-- are_states_compatible: incompatible as soon as one attribute's
divergence exceeds the threshold; in particular compatible whenever the
attribute list is empty. -/
def are_states_compatible (rest : SNode → SNode → String → ℚ)
    (node1 node2 : SNode) (attribute_names : List String)
    (divergence_threshold : ℚ) : Bool :=
  attribute_names.all
    (fun a => !(decide (compute_attribute_divergence rest node1 node2 a > divergence_threshold)))

mutual

/-- merge_states from src/efsm_dpn/learn/state_merger.py, fuelled (the
source can recurse unboundedly on aliased structures, in which case Python
never returns and the model returns none): record mapping[node2] = node1,
fold node2's snapshot of children into node1 (recursively merging children
under a shared label, grafting the others), then concatenate node2's edge
samples into node1 and OR the accepting flags. -/
def merge_states : Nat → Store → List Nat → Nat → Nat → Option (Store × List Nat)
  | 0, _, _, _, _ => none
  | fuel + 1, store, mapping, node1_id, node2_id =>
    match lget? store node2_id with
    | none => none
    | some nd2 =>
      let mapping := lset mapping node2_id node1_id
      match merge_kids fuel store mapping node1_id nd2.children with
      | none => none
      | some (store1, mapping1) =>
        match lget? store1 node1_id, lget? store1 node2_id with
        | some nd1, some nd2' =>
          let samples := nd2'.samples.foldl
            (fun acc p =>
              match alookup acc p.1 with
              | some l => aset acc p.1 (l ++ p.2)
              | none => aset acc p.1 p.2)
            nd1.samples
          let nd1' : SNode :=
            { accepting := nd1.accepting || nd2'.accepting,
              children := nd1.children, samples := samples }
          some (lset store1 node1_id nd1', mapping1)
        | _, _ => none

/-- Children loop of merge_states over the snapshot of node2's children:
a label node1 also has leads to a recursive merge of the two children;
otherwise node2's child is grafted under node1. -/
def merge_kids : Nat → Store → List Nat → Nat → List (String × Nat) → Option (Store × List Nat)
  | 0, _, _, _, _ => none
  | _ + 1, store, mapping, _, [] => some (store, mapping)
  | fuel + 1, store, mapping, node1_id, (label, child2) :: rest =>
    match lget? store node1_id with
    | none => none
    | some nd1 =>
      match alookup nd1.children label with
      | some child1 =>
        match merge_states fuel store mapping child1 child2 with
        | none => none
        | some (store1, mapping1) => merge_kids fuel store1 mapping1 node1_id rest
      | none =>
        merge_kids fuel
          (lset store node1_id
            { nd1 with children := nd1.children ++ [(label, child2)] })
          mapping node1_id rest

end

/-- Insert into a sorted duplicate-free list of node ids (the model uses
ascending order for the iteration order of the Python integer sets red and
blue, which the source leaves unspecified; the verified property does not
depend on the order). -/
def ninsert : List Nat → Nat → List Nat
  | [], x => [x]
  | y :: ys, x =>
    if x < y then x :: y :: ys
    else if x = y then y :: ys
    else y :: ninsert ys x

/-- Inner loop of blue_fringe_merge over the red set: the first red node
compatible with the blue node, none of the option when a red id is missing
from the store (the source would crash there). -/
def find_compatible (rest : SNode → SNode → String → ℚ) (attrs : List String)
    (θ : ℚ) (store : Store) (blue_node : SNode) : List Nat → Option (Option Nat)
  | [] => some none
  | r :: rs =>
    match lget? store r with
    | none => none
    | some rnode =>
      if are_states_compatible rest rnode blue_node attrs θ then some (some r)
      else find_compatible rest attrs θ store blue_node rs

/-- Main loop of blue_fringe_merge, fuelled: pick the least blue node; merge
it into the first compatible red node, newly grafted children joining the
blue frontier, or promote it to red, its children joining the blue
frontier. -/
def bf_loop (rest : SNode → SNode → String → ℚ) (attrs : List String) (θ : ℚ) :
    Nat → Store → List Nat → List Nat → List Nat → Option (List Nat)
  | 0, _, _, _, _ => none
  | fuel + 1, store, mapping, red, blue =>
    match blue with
    | [] => some mapping
    | b :: blue_rest =>
      match lget? store b with
      | none => none
      | some bnode =>
        match find_compatible rest attrs θ store bnode red with
        | none => none
        | some (some r) =>
          match lget? store r with
          | none => none
          | some rnode =>
            let new_children :=
              (bnode.children.filter (fun p => (alookup rnode.children p.1).isNone)).map Prod.snd
            match merge_states fuel store mapping r b with
            | none => none
            | some (store1, mapping1) =>
              let blue1 := new_children.foldl
                (fun bl c => if c ∈ red ∨ c ∈ bl then bl else ninsert bl c) blue_rest
              bf_loop rest attrs θ fuel store1 mapping1 red blue1
        | some none =>
          let red1 := ninsert red b
          let blue1 := (bnode.children.map Prod.snd).foldl
            (fun bl c => if c ∈ red1 ∨ c ∈ bl then bl else ninsert bl c) blue_rest
          bf_loop rest attrs θ fuel store mapping red1 blue1

/-- The while loop of the final path compression: follow the mapping from r
until a fixed point or a key outside the mapping, fuelled (a cycle makes the
source loop forever and the model return none). -/
def find_rep (m : List Nat) : Nat → Nat → Option Nat
  | _, 0 => none
  | r, fuel + 1 =>
    match lget? m r with
    | none => some r
    | some v => if v = r then some r else find_rep m v fuel

/-- Path compression pass over the listed keys: rewrite each entry to the
representative the while loop finds. -/
def closure_go : List Nat → List Nat → Option (List Nat)
  | m, [] => some m
  | m, i :: rest =>
    match lget? m i with
    | none => none
    | some v =>
      match find_rep m v (m.length + 1) with
      | none => none
      | some rep => closure_go (lset m i rep) rest

/-- The final transitive-closure pass of blue_fringe_merge over every key of
the mapping (keys are the node ids 0..n-1 in insertion order). -/
def closure (m : List Nat) : Option (List Nat) :=
  closure_go m (List.range m.length)

/-- blue_fringe_merge from src/efsm_dpn/learn/state_merger.py: red starts as
the root, blue as the root's children, the mapping as the identity on all
node ids; after the merging loop the mapping is path compressed. -/
def blue_fringe_merge (rest : SNode → SNode → String → ℚ) (attrs : List String)
    (θ : ℚ) (fuel : Nat) (store : Store) : Option (List Nat) :=
  match lget? store 0 with
  | none => none
  | some root =>
    let mapping := List.range store.length
    let blue := (root.children.map Prod.snd).foldl (fun bl c => ninsert bl c) []
    match bf_loop rest attrs θ fuel store mapping [0] blue with
    | none => none
    | some m => closure m

/-- A node with the single outgoing label A. -/
def snode_A : SNode := { accepting := false, children := [], samples := [("A", [[]])] }

/-- A node with the single outgoing label B. -/
def snode_B : SNode := { accepting := false, children := [], samples := [("B", [[]])] }

/-- A stand-in for the float-based divergence remainder. -/
def rest_zero : SNode → SNode → String → ℚ := fun _ _ _ => 0

/-- C9 counterexample: two nodes with disjoint (nonempty) outgoing-label
sets, the default threshold 0.3 from [0,1], and the empty attribute list:
are_states_compatible returns compatible (True), because its loop body never
runs, although the claim requires incompatible for every attribute list. -/
theorem C9_compatible_counterexample :
    (∀ l ∈ snode_A.samples.map Prod.fst, l ∉ snode_B.samples.map Prod.fst) ∧
    (0 : ℚ) ≤ 3/10 ∧ (3/10 : ℚ) ≤ 1 ∧
    are_states_compatible rest_zero snode_A snode_B [] (3/10) = true := by
  refine ⟨by decide, by norm_num, by norm_num, rfl⟩

/-- C9 (amended): when the two nodes share no outgoing-edge label,
are_states_compatible returns incompatible provided the attribute list is
nonempty and the threshold is below 1 (each considered attribute then has
divergence 1, which exceeds the threshold); with an empty attribute list, or
with threshold 1, it returns compatible instead. -/
theorem C9_incompatible_on_disjoint_labels (rest : SNode → SNode → String → ℚ)
    (n1 n2 : SNode) (attrs : List String) (θ : ℚ)
    (hne : attrs ≠ []) (hθ : θ < 1)
    (hdisj : ∀ l ∈ n1.samples.map Prod.fst, l ∉ n2.samples.map Prod.fst) :
    are_states_compatible rest n1 n2 attrs θ = false := by
  have hcommon : (n1.samples.map Prod.fst).filter
      (fun l => decide (l ∈ n2.samples.map Prod.fst)) = [] := by
    rw [List.filter_eq_nil_iff]
    intro a ha
    simp [hdisj a ha]
  have hdiv : compute_attribute_divergence rest n1 n2 =
      fun _ => (1 : ℚ) := by
    funext a
    unfold compute_attribute_divergence
    rw [if_pos hcommon]
  cases attrs with
  | nil => exact absurd rfl hne
  | cons a as =>
    have h1 : θ < compute_attribute_divergence rest n1 n2 a := by
      rw [hdiv]
      exact hθ
    simp [are_states_compatible, h1]

/-- Witness for C9 at concrete nodes with disjoint label sets. -/
theorem C9_incompatible_on_disjoint_labels_witness :
    ((["x"] : List String) ≠ []) ∧ ((3/10 : ℚ) < 1) ∧
    (∀ l ∈ snode_A.samples.map Prod.fst, l ∉ snode_B.samples.map Prod.fst) ∧
    are_states_compatible rest_zero snode_A snode_B ["x"] (3/10) = false :=
  ⟨by decide, by norm_num, by decide,
   C9_incompatible_on_disjoint_labels rest_zero snode_A snode_B ["x"] (3/10)
     (by decide) (by norm_num) (by decide)⟩

theorem length_lset {α : Type} (l : List α) (i : Nat) (v : α) :
    (lset l i v).length = l.length := by
  induction l generalizing i with
  | nil => rfl
  | cons x xs ih =>
    cases i with
    | zero => rfl
    | succ j => simp [lset, ih]

theorem lget?_lset_self {α : Type} (l : List α) (i : Nat) (v : α)
    (h : i < l.length) : lget? (lset l i v) i = some v := by
  induction l generalizing i with
  | nil => simp at h
  | cons x xs ih =>
    cases i with
    | zero => rfl
    | succ j => exact ih j (by simpa using h)

theorem lget?_lset_ne {α : Type} (l : List α) (i j : Nat) (v : α)
    (h : j ≠ i) : lget? (lset l i v) j = lget? l j := by
  induction l generalizing i j with
  | nil => rfl
  | cons x xs ih =>
    cases i with
    | zero =>
      cases j with
      | zero => exact absurd rfl h
      | succ j' => rfl
    | succ i' =>
      cases j with
      | zero => rfl
      | succ j' => exact ih i' j' (fun he => h (by rw [he]))

theorem mem_of_lget? {α : Type} (l : List α) (i : Nat) {x : α}
    (h : lget? l i = some x) : x ∈ l := by
  induction l generalizing i with
  | nil => simp [lget?] at h
  | cons y ys ih =>
    cases i with
    | zero =>
      injection h with h'
      subst h'
      exact List.mem_cons_self y ys
    | succ j => exact List.mem_cons_of_mem y (ih j h)

theorem lget?_lt {α : Type} (l : List α) (i : Nat) {x : α}
    (h : lget? l i = some x) : i < l.length := by
  induction l generalizing i with
  | nil => simp [lget?] at h
  | cons y ys ih =>
    cases i with
    | zero => simp
    | succ j => simpa using ih j h

theorem lget?_of_lt {α : Type} (l : List α) (i : Nat) (h : i < l.length) :
    ∃ x, lget? l i = some x := by
  induction l generalizing i with
  | nil => simp at h
  | cons y ys ih =>
    cases i with
    | zero => exact ⟨y, rfl⟩
    | succ j => exact ih j (by simpa using h)

theorem mem_lset {α : Type} (l : List α) (i : Nat) (v : α) {x : α}
    (h : x ∈ lset l i v) : x ∈ l ∨ x = v := by
  induction l generalizing i with
  | nil => simp [lset] at h
  | cons y ys ih =>
    cases i with
    | zero =>
      rcases List.mem_cons.1 h with rfl | h'
      · exact Or.inr rfl
      · exact Or.inl (List.mem_cons_of_mem y h')
    | succ j =>
      rcases List.mem_cons.1 h with rfl | h'
      · exact Or.inl (List.mem_cons_self x ys)
      · rcases ih j h' with h'' | h''
        · exact Or.inl (List.mem_cons_of_mem y h'')
        · exact Or.inr h''

theorem mem_of_alookup {α : Type} (l : List (String × α)) (k : String) {v : α}
    (h : alookup l k = some v) : (k, v) ∈ l := by
  induction l with
  | nil => simp [alookup] at h
  | cons p ps ih =>
    obtain ⟨pk, pv⟩ := p
    by_cases hk : pk = k
    · subst hk
      rw [alookup, if_pos rfl] at h
      injection h with h'
      subst h'
      exact List.mem_cons_self _ ps
    · rw [alookup, if_neg hk] at h
      exact List.mem_cons_of_mem _ (ih h)

/-- All values of a mapping are node ids below n. -/
def vals_lt (n : Nat) (m : List Nat) : Prop := ∀ v ∈ m, v < n

/-- Every child id stored in any node of the store is a valid position of
the store (true of every store coming from a built PTA, where the node list
indexes exactly the allocated ids). -/
def store_wf (store : Store) : Prop :=
  ∀ nd ∈ store, ∀ p ∈ nd.children, p.2 < store.length

instance (n : Nat) (m : List Nat) : Decidable (vals_lt n m) := by
  unfold vals_lt
  infer_instance

instance (store : Store) : Decidable (store_wf store) := by
  unfold store_wf
  infer_instance

theorem vals_lt_lset {n : Nat} {m : List Nat} (i : Nat) {v : Nat}
    (hm : vals_lt n m) (hv : v < n) : vals_lt n (lset m i v) := by
  intro x hx
  rcases mem_lset m i v hx with h | rfl
  · exact hm x h
  · exact hv

theorem store_wf_lset {store : Store} (i : Nat) {nd : SNode}
    (hw : store_wf store) (hnd : ∀ p ∈ nd.children, p.2 < store.length) :
    store_wf (lset store i nd) := by
  intro x hx p hp
  rw [length_lset]
  rcases mem_lset store i nd hx with h | rfl
  · exact hw x h p hp
  · exact hnd p hp

/-- Invariant preservation through the merging recursion: the store keeps
its length, stays well formed, and every mapping value stays a valid node
id. -/
theorem merge_inv (fuel : Nat) :
    (∀ store m n1 n2 out, store_wf store → vals_lt store.length m →
      n1 < store.length →
      merge_states fuel store m n1 n2 = some out →
      out.1.length = store.length ∧ store_wf out.1 ∧
      vals_lt store.length out.2 ∧ out.2.length = m.length) ∧
    (∀ store m n1 snap out, store_wf store → vals_lt store.length m →
      n1 < store.length → (∀ p ∈ snap, p.2 < store.length) →
      merge_kids fuel store m n1 snap = some out →
      out.1.length = store.length ∧ store_wf out.1 ∧
      vals_lt store.length out.2 ∧ out.2.length = m.length) := by
  induction fuel with
  | zero =>
    constructor
    · intro store m n1 n2 out _ _ _ h
      exact absurd h (by simp [merge_states])
    · intro store m n1 snap out _ _ _ _ h
      exact absurd h (by simp [merge_kids])
  | succ fuel ih =>
    obtain ⟨ihS, ihK⟩ := ih
    constructor
    · intro store m n1 n2 out hwf hm hn1 h
      rw [merge_states] at h
      cases h2 : lget? store n2 with
      | none =>
        rw [h2] at h
        simp at h
      | some nd2 =>
        rw [h2] at h
        dsimp only at h
        cases hk : merge_kids fuel store (lset m n2 n1) n1 nd2.children with
        | none =>
          rw [hk] at h
          simp at h
        | some p =>
          obtain ⟨store1, m1⟩ := p
          rw [hk] at h
          dsimp only at h
          have hsnap : ∀ q ∈ nd2.children, q.2 < store.length :=
            fun q hq => hwf nd2 (mem_of_lget? store n2 h2) q hq
          have hm' : vals_lt store.length (lset m n2 n1) :=
            vals_lt_lset n2 hm hn1
          obtain ⟨hl1, hwf1, hv1, hlen1⟩ :=
            ihK store (lset m n2 n1) n1 nd2.children (store1, m1) hwf hm' hn1 hsnap hk
          dsimp only at hl1 hwf1 hv1 hlen1
          cases hga : lget? store1 n1 with
          | none =>
            rw [hga] at h
            simp at h
          | some nd1 =>
            cases hgb : lget? store1 n2 with
            | none =>
              rw [hga, hgb] at h
              simp at h
            | some nd2' =>
              rw [hga, hgb] at h
              dsimp only at h
              injection h with h'
              subst h'
              have hch : ∀ p ∈ nd1.children, p.2 < store1.length :=
                fun p hp => hwf1 nd1 (mem_of_lget? store1 n1 hga) p hp
              refine ⟨?_, ?_, hv1, by dsimp only; rw [hlen1, length_lset]⟩
              · show (lset store1 n1 _).length = store.length
                rw [length_lset]
                exact hl1
              · show store_wf (lset store1 n1 _)
                refine store_wf_lset n1 hwf1 ?_
                exact hch
    · intro store m n1 snap out hwf hm hn1 hsnap h
      cases snap with
      | nil =>
        rw [merge_kids] at h
        injection h with h'
        subst h'
        exact ⟨rfl, hwf, hm, rfl⟩
      | cons q rest =>
        obtain ⟨label, child2⟩ := q
        rw [merge_kids] at h
        cases hg1 : lget? store n1 with
        | none =>
          rw [hg1] at h
          simp at h
        | some nd1 =>
          rw [hg1] at h
          dsimp only at h
          cases ha : alookup nd1.children label with
          | some child1 =>
            rw [ha] at h
            dsimp only at h
            cases hms : merge_states fuel store m child1 child2 with
            | none =>
              rw [hms] at h
              simp at h
            | some p =>
              obtain ⟨store1, m1⟩ := p
              rw [hms] at h
              dsimp only at h
              have hchild1 : child1 < store.length :=
                hwf nd1 (mem_of_lget? store n1 hg1) (label, child1) (mem_of_alookup _ _ ha)
              obtain ⟨hl1, hwf1, hv1, hlen1⟩ :=
                ihS store m child1 child2 (store1, m1) hwf hm hchild1 hms
              have hn1' : n1 < store1.length := by rw [hl1]; exact hn1
              have hv1' : vals_lt store1.length m1 := by rw [hl1]; exact hv1
              have hsnap' : ∀ p ∈ rest, p.2 < store1.length := by
                rw [hl1]
                exact fun p hp => hsnap p (List.mem_cons_of_mem _ hp)
              obtain ⟨hlA, hwfA, hvA, hlenA⟩ :=
                ihK store1 m1 n1 rest out hwf1 hv1' hn1' hsnap' h
              refine ⟨by rw [hlA, hl1], hwfA, ?_, by rw [hlenA, hlen1]⟩
              rw [hl1] at hvA
              exact hvA
          | none =>
            rw [ha] at h
            dsimp only at h
            have hchild2 : child2 < store.length :=
              hsnap (label, child2) (List.mem_cons_self _ rest)
            have hwf' : store_wf (lset store n1
                { nd1 with children := nd1.children ++ [(label, child2)] }) := by
              refine store_wf_lset n1 hwf ?_
              intro p hp
              rcases List.mem_append.1 hp with hp' | hp'
              · exact hwf nd1 (mem_of_lget? store n1 hg1) p hp'
              · rcases List.mem_singleton.1 hp' with rfl
                exact hchild2
            have hlg : (lset store n1
                { nd1 with children := nd1.children ++ [(label, child2)] }).length =
                store.length := length_lset store n1 _
            obtain ⟨hlA, hwfA, hvA, hlenA⟩ :=
              ihK (lset store n1
                  { nd1 with children := nd1.children ++ [(label, child2)] })
                m n1 rest out hwf'
                (by rw [hlg]; exact hm)
                (by rw [hlg]; exact hn1)
                (by rw [hlg]; exact fun p hp => hsnap p (List.mem_cons_of_mem _ hp))
                h
            refine ⟨by rw [hlA, hlg], hwfA, ?_, hlenA⟩
            rw [hlg] at hvA
            exact hvA

theorem find_compatible_lt (rest : SNode → SNode → String → ℚ)
    (attrs : List String) (θ : ℚ) (store : Store) (bnode : SNode) :
    ∀ red r, find_compatible rest attrs θ store bnode red = some (some r) →
      r < store.length := by
  intro red
  induction red with
  | nil =>
    intro r h
    simp [find_compatible] at h
  | cons r' rs ih =>
    intro r h
    rw [find_compatible] at h
    cases hg : lget? store r' with
    | none =>
      rw [hg] at h
      simp at h
    | some rnode =>
      rw [hg] at h
      dsimp only at h
      by_cases hc : are_states_compatible rest rnode bnode attrs θ = true
      · rw [if_pos hc] at h
        injection h with h'
        injection h' with h''
        exact h'' ▸ lget?_lt store r' hg
      · rw [if_neg hc] at h
        exact ih r h

/-- Invariant preservation through the blue-fringe loop: whenever the loop
returns a mapping, its values are valid node ids and its length is the node
count. -/
theorem bf_loop_inv (rest : SNode → SNode → String → ℚ) (attrs : List String)
    (θ : ℚ) : ∀ (fuel : Nat) (store : Store) (m red blue : List Nat)
      (m' : List Nat),
    store_wf store → vals_lt store.length m → m.length = store.length →
    bf_loop rest attrs θ fuel store m red blue = some m' →
    vals_lt m'.length m' ∧ m'.length = store.length := by
  intro fuel
  induction fuel with
  | zero =>
    intro store m red blue m' _ _ _ h
    exact absurd h (by simp [bf_loop])
  | succ fuel ih =>
    intro store m red blue m' hwf hm hml h
    rw [bf_loop.eq_def] at h
    dsimp only at h
    cases blue with
    | nil =>
      dsimp only at h
      injection h with h'
      subst h'
      refine ⟨fun v hv => ?_, hml⟩
      rw [hml]
      exact hm v hv
    | cons b blue_rest =>
      dsimp only at h
      cases hgb : lget? store b with
      | none =>
        rw [hgb] at h
        simp at h
      | some bnode =>
        rw [hgb] at h
        dsimp only at h
        cases hfc : find_compatible rest attrs θ store bnode red with
        | none =>
          rw [hfc] at h
          simp at h
        | some o =>
          cases o with
          | some r =>
            rw [hfc] at h
            dsimp only at h
            cases hgr : lget? store r with
            | none =>
              rw [hgr] at h
              simp at h
            | some rnode =>
              rw [hgr] at h
              dsimp only at h
              cases hms : merge_states fuel store m r b with
              | none =>
                rw [hms] at h
                simp at h
              | some p =>
                obtain ⟨store1, m1⟩ := p
                rw [hms] at h
                dsimp only at h
                have hrlt : r < store.length := lget?_lt store r hgr
                obtain ⟨hl1, hwf1, hv1, hlen1⟩ :=
                  (merge_inv fuel).1 store m r b (store1, m1) hwf hm hrlt hms
                dsimp only at hl1 hwf1 hv1 hlen1
                obtain ⟨hva, hla⟩ := ih store1 m1 red _ m' hwf1
                  (by rw [hl1]; exact hv1) (by rw [hl1, hlen1, hml]) h
                exact ⟨hva, by rw [hla, hl1]⟩
          | none =>
            rw [hfc] at h
            dsimp only at h
            exact ih store m _ _ m' hwf hm hml h

/-- A mapping entry is a fixed point. -/
def good (m : List Nat) (j : Nat) : Prop :=
  ∀ v, lget? m j = some v → lget? m v = some v

theorem find_rep_spec (m : List Nat) (hm : vals_lt m.length m) :
    ∀ (fuel r : Nat), r < m.length → ∀ rep, find_rep m r fuel = some rep →
      rep < m.length ∧ lget? m rep = some rep := by
  intro fuel
  induction fuel with
  | zero =>
    intro r _ rep h
    exact absurd h (by simp [find_rep])
  | succ fuel ih =>
    intro r hr rep h
    rw [find_rep] at h
    obtain ⟨v, hv⟩ := lget?_of_lt m r hr
    rw [hv] at h
    dsimp only at h
    by_cases hvr : v = r
    · rw [if_pos hvr] at h
      injection h with h'
      subst h'
      exact ⟨hr, by rw [hv, hvr]⟩
    · rw [if_neg hvr] at h
      exact ih v (hm v (mem_of_lget? m r hv)) rep h

theorem good_after_set (m : List Nat) (i rep : Nat) (hi : i < m.length)
    (hfix : lget? m rep = some rep) : good (lset m i rep) i := by
  intro v' hv'
  rw [lget?_lset_self m i rep hi] at hv'
  injection hv' with h'
  subst h'
  by_cases hrepi : rep = i
  · subst hrepi
    exact lget?_lset_self _ _ _ hi
  · rw [lget?_lset_ne m i rep rep hrepi]
    exact hfix

theorem good_preserved (m : List Nat) (i v rep j : Nat)
    (hv : lget? m i = some v)
    (hrep : find_rep m v (m.length + 1) = some rep)
    (hfix : lget? m rep = some rep)
    (hgoodj : good m j) : good (lset m i rep) j := by
  have hi : i < m.length := lget?_lt m i hv
  by_cases hji : j = i
  · subst hji
    exact good_after_set m j rep hi hfix
  · intro v' hv'
    rw [lget?_lset_ne m i j rep hji] at hv'
    have hfv' : lget? m v' = some v' := hgoodj v' hv'
    by_cases hv'i : v' = i
    · have hfii : lget? m i = some i := by rw [← hv'i]; exact hfv'
      have hvi : v = i := Option.some.inj (hv.symm.trans hfii)
      have hrep' : rep = i := by
        rw [hvi] at hrep
        rw [find_rep, hfii] at hrep
        dsimp only at hrep
        rw [if_pos rfl] at hrep
        exact (Option.some.inj hrep).symm
      rw [hv'i, hrep']
      exact lget?_lset_self m i i hi
    · rw [lget?_lset_ne m i v' rep hv'i]
      exact hfv'

theorem closure_go_spec (idxs : List Nat) :
    ∀ m m', vals_lt m.length m → closure_go m idxs = some m' →
      m'.length = m.length ∧ vals_lt m'.length m' ∧
      (∀ j, j ∈ idxs ∨ good m j → good m' j) := by
  induction idxs with
  | nil =>
    intro m m' hm h
    injection h with h'
    subst h'
    refine ⟨rfl, hm, fun j hj => ?_⟩
    rcases hj with hj | hj
    · exact absurd hj (List.not_mem_nil j)
    · exact hj
  | cons i rest ih =>
    intro m m' hm h
    rw [closure_go] at h
    cases hv : lget? m i with
    | none =>
      rw [hv] at h
      simp at h
    | some v =>
      rw [hv] at h
      dsimp only at h
      cases hr : find_rep m v (m.length + 1) with
      | none =>
        rw [hr] at h
        simp at h
      | some rep =>
        rw [hr] at h
        dsimp only at h
        have hvlt : v < m.length := hm v (mem_of_lget? m i hv)
        obtain ⟨hreplt, hrepfix⟩ := find_rep_spec m hm (m.length + 1) v hvlt rep hr
        have hilt : i < m.length := lget?_lt m i hv
        have hm1 : vals_lt (lset m i rep).length (lset m i rep) := by
          rw [length_lset]
          exact vals_lt_lset i hm hreplt
        obtain ⟨hlen, hvals, hgood⟩ := ih (lset m i rep) m' hm1 h
        refine ⟨by rw [hlen, length_lset], hvals, ?_⟩
        intro j hj
        apply hgood
        rcases hj with hj | hgoodj
        · rcases List.mem_cons.1 hj with rfl | hj'
          · exact Or.inr (good_after_set m j rep hilt hrepfix)
          · exact Or.inl hj'
        · exact Or.inr (good_preserved m i v rep j hv hr hrepfix hgoodj)

/-- C6: whenever blue_fringe_merge returns a mapping (on a well-formed node
store), that mapping is idempotent: the value stored under any entry of the
mapping is a fixed point of the mapping. -/
theorem C6_blue_fringe_idempotent (rest : SNode → SNode → String → ℚ)
    (attrs : List String) (θ : ℚ) (fuel : Nat) (store : Store)
    (m : List Nat) (hwf : store_wf store)
    (h : blue_fringe_merge rest attrs θ fuel store = some m) :
    ∀ j v, lget? m j = some v → lget? m v = some v := by
  rw [blue_fringe_merge] at h
  cases hg0 : lget? store 0 with
  | none =>
    rw [hg0] at h
    simp at h
  | some root =>
    rw [hg0] at h
    dsimp only at h
    cases hbf : bf_loop rest attrs θ fuel store (List.range store.length) [0]
        ((root.children.map Prod.snd).foldl (fun bl c => ninsert bl c) []) with
    | none =>
      rw [hbf] at h
      simp at h
    | some m1 =>
      rw [hbf] at h
      dsimp only at h
      have hrange : vals_lt store.length (List.range store.length) :=
        fun v hv => List.mem_range.1 hv
      obtain ⟨hv1, hl1⟩ := bf_loop_inv rest attrs θ fuel store
        (List.range store.length) [0] _ m1 hwf hrange (List.length_range _) hbf
      rw [closure] at h
      obtain ⟨hlen, _, hgood⟩ := closure_go_spec (List.range m1.length) m1 m hv1 h
      intro j v hjv
      have hj : j < m.length := lget?_lt m j hjv
      have hjm1 : j < m1.length := by rw [← hlen]; exact hj
      exact hgood j (Or.inl (List.mem_range.2 hjm1)) v hjv

/-- A two-node store: the root with a single child under label A. -/
def demo_store : Store :=
  [{ accepting := false, children := [("A", 1)], samples := [("A", [[]])] },
   { accepting := true, children := [], samples := [] }]

/-- Witness for C6: a concrete run of blue_fringe_merge merging the child
into the root, whose returned mapping is idempotent. -/
theorem C6_blue_fringe_idempotent_witness :
    store_wf demo_store ∧
    blue_fringe_merge rest_zero [] (3/10) 10 demo_store = some [0, 0] ∧
    lget? [0, 0] 0 = some 0 :=
  ⟨by decide, by decide,
   C6_blue_fringe_idempotent rest_zero [] (3/10) 10 demo_store [0, 0]
     (by decide) (by decide) 1 0 (by decide)⟩

end EfsmDpn
